import Mathlib

/-! multiio: a reader spanning several sized readers.

A shallow embedding of `reader.go` (package `multiio`).

* Go `int64` (and `int`, taken to be 64 bits wide) values are integers; every
  arithmetic operation of the source is followed by `int64`, the reduction to
  the two's complement range `[-2^63, 2^63)`.
* A byte buffer `p []byte` is a `List Byte`; a call that writes into `p`
  returns the new contents of `p` (always of the same length).
* A run-time panic (the slice expression `p[n1:]` with `n1` outside
  `[0, len(p)]`) is the result `none`.
* The pointer `*MultiReader` is a value; the methods that mutate `r.pos`
  return the updated reader.
-/

namespace Multiio

/-- A byte of a buffer. -/
abbrev Byte := UInt8

/-- Reduction of an integer to the range of a Go `int64`,
two's complement wrap-around. -/
def int64 (x : Int) : Int := (x + 2 ^ 63) % 2 ^ 64 - 2 ^ 63

/-- The integer `x` is a value of the Go type `int64`. -/
def isInt64 (x : Int) : Prop := -2 ^ 63 ≤ x ∧ x < 2 ^ 63

instance (x : Int) : Decidable (isInt64 x) := by unfold isInt64; infer_instance

/-- The `error` values the package meets: `nil` is `none`, and `some` holds
`io.EOF`, `errOutOfRange{}` or any other error of an underlying reader.
`errOutOfRange` is a type of the package that `reader.go` uses and does not
declare; it is taken as an error value of its own, distinct from `io.EOF`. -/
inductive Error where
  | EOF
  | errOutOfRange
  | other (tag : Nat)
deriving DecidableEq, Repr

/-- What a `ReadAt` or `Read` call gives back: the count `n`, the error, and
the contents of the buffer `p` after the call. -/
structure ReadResult where
  n : Int
  err : Option Error
  p : List Byte
deriving DecidableEq, Repr

/-- An implementation of the interface `SizedReaderAt` from outside the
package.  `ReadAt p off` gives the count, the error and the bytes the call
stores from the start of `p` on. -/
structure Source where
  Size : Int
  ReadAt : List Byte → Int → Int × Option Error × List Byte

/-- The buffer `p` after `w` was stored from its start on; the length of `p`
never changes. -/
def overlay (p w : List Byte) : List Byte := (w ++ p.drop w.length).take p.length

/-- Go's `strings.Reader` (standard library) over the bytes `s`: `Size` is
`len(s)`; `ReadAt(b, off)` fails on a negative offset, reports `io.EOF` with
`0` bytes when `off >= len(s)`, and otherwise copies
`min(len(b), len(s) - off)` bytes of `s[off:]`, with `io.EOF` when that is
fewer than `len(b)`. -/
def stringsReader (s : List Byte) : Source where
  Size := s.length
  ReadAt := fun b off =>
    if off < 0 then (0, some (Error.other 0), [])
    else if off ≥ (s.length : Int) then (0, some Error.EOF, [])
    else
      let w := (s.drop off.toNat).take b.length
      (w.length, if (w.length : Int) < b.length then some Error.EOF else none, w)

/-- A reader of `size` zero bytes that holds no data in memory, in the way an
`io.SectionReader` over a sparse file does. -/
def sparseSource (size : Int) : Source where
  Size := size
  ReadAt := fun b off =>
    if off < 0 then (0, some (Error.other 0), [])
    else if off ≥ size then (0, some Error.EOF, [])
    else
      let k := min b.length (size - off).toNat
      (k, if k < b.length then some Error.EOF else none, List.replicate k 0)

/-- The values of the interface `SizedReaderAt`: a reader from outside the
package, the package's `nullReader{}`, or a `*MultiReader` (fields `r1`,
`r2`, `pos`). -/
inductive SizedReaderAt where
  | ext (s : Source)
  | nullReader
  | multi (r1 r2 : SizedReaderAt) (pos : Int)

/-- The struct `MultiReader`. -/
structure MultiReader where
  r1 : SizedReaderAt
  r2 : SizedReaderAt
  pos : Int

/-- A `*MultiReader` used as a `SizedReaderAt`. -/
def MultiReader.toSized (r : MultiReader) : SizedReaderAt := .multi r.r1 r.r2 r.pos

/-- Method `Size` through the interface: `nullReader.Size` is `0`,
`(*MultiReader).Size` is `r.r1.Size() + r.r2.Size()`. -/
def SizedReaderAt.Size : SizedReaderAt → Int
  | .ext s => s.Size
  | .nullReader => 0
  | .multi r1 r2 _ => int64 (r1.Size + r2.Size)

/-- Method `ReadAt` through the interface: `nullReader.ReadAt` returns
`0, io.EOF`; the `multi` case is `(*MultiReader).ReadAt`. -/
def SizedReaderAt.ReadAt : SizedReaderAt → List Byte → Int → Option ReadResult
  | .ext s, p, offset =>
    let res := s.ReadAt p offset
    some ⟨res.1, res.2.1, overlay p res.2.2⟩
  | .nullReader, p, _ => some ⟨0, some Error.EOF, p⟩
  | .multi r1 r2 _, p, offset =>
    let r1Size := r1.Size
    let r2Size := r2.Size
    if offset > int64 (r1Size + r2Size) then
      some ⟨0, some Error.errOutOfRange, p⟩
    else if offset < r1Size then
      match r1.ReadAt p offset with
      | none => none
      | some res1 =>
        if res1.err = none ∨ res1.err ≠ some Error.EOF then
          some res1
        else if 0 ≤ res1.n ∧ res1.n ≤ p.length then
          match r2.ReadAt (res1.p.drop res1.n.toNat) 0 with
          | none => none
          | some res2 =>
            some ⟨int64 (res1.n + res2.n), res2.err, res1.p.take res1.n.toNat ++ res2.p⟩
        else none
    else
      r2.ReadAt p (int64 (offset - r1Size))

/-- `NewMultiReader(readers...)`; `none` is the `nil` pointer. -/
def NewMultiReader (readers : List SizedReaderAt) : Option MultiReader :=
  match readers with
  | [] => none
  | [r] => some { r1 := r, r2 := .nullReader, pos := 0 }
  | r0 :: rest =>
    some (rest.foldl (fun rdr r => { r1 := rdr.toSized, r2 := r, pos := 0 })
      { r1 := r0, r2 := .nullReader, pos := 0 })

/-- `(*MultiReader).Size`. -/
def MultiReader.Size (r : MultiReader) : Int := int64 (r.r1.Size + r.r2.Size)

/-- `(*MultiReader).ReadAt`. -/
def MultiReader.ReadAt (r : MultiReader) (p : List Byte) (offset : Int) : Option ReadResult :=
  r.toSized.ReadAt p offset

/-- The constants `io.SeekStart`, `io.SeekCurrent`, `io.SeekEnd`. -/
def SeekStart : Int := 0

/-- See `SeekStart`. -/
def SeekCurrent : Int := 1

/-- See `SeekStart`. -/
def SeekEnd : Int := 2

/-- What `Seek` gives back: the position, the error, and the reader after the
call. -/
structure SeekResult where
  ret : Int
  err : Option Error
  rdr : MultiReader

/-- `(*MultiReader).Seek`. -/
def MultiReader.Seek (r : MultiReader) (offset : Int) (whence : Int) : SeekResult :=
  let r1Size := r.r1.Size
  let r2Size := r.r2.Size
  if offset > int64 (r1Size + r2Size) then
    ⟨-1, some Error.errOutOfRange, r⟩
  else if whence = SeekStart then
    if offset < 0 then ⟨-1, some Error.errOutOfRange, r⟩
    else ⟨offset, none, { r with pos := offset }⟩
  else if whence = SeekCurrent then
    let newPos := int64 (r.pos + offset)
    if newPos < 0 ∨ newPos > int64 (r1Size + r2Size) then
      ⟨-1, some Error.errOutOfRange, r⟩
    else ⟨newPos, none, { r with pos := newPos }⟩
  else if whence = SeekEnd then
    let newPos := int64 (int64 (r1Size + r2Size) + offset)
    if offset > 0 ∨ newPos < 0 then
      ⟨-1, some Error.errOutOfRange, r⟩
    else ⟨newPos, none, { r with pos := newPos }⟩
  else
    ⟨-1, some Error.errOutOfRange, r⟩

/-- `(*MultiReader).Read`: the result of `ReadAt(p, r.pos)` and the reader
with `pos` advanced by `n`; `none` when `ReadAt` panics. -/
def MultiReader.Read (r : MultiReader) (p : List Byte) : Option (ReadResult × MultiReader) :=
  match r.ReadAt p r.pos with
  | none => none
  | some res => some (res, { r with pos := int64 (r.pos + res.n) })

/-! ## Callers of `Read`, and the byte sequence a reader presents -/

/-- Calls `Read` `k` times in a row, each call with the buffer as the call
before left it; gives the results in call order and the reader afterwards. -/
def readTimes : Nat → MultiReader → List Byte → Option (List ReadResult × MultiReader)
  | 0, r, _ => some ([], r)
  | k + 1, r, p =>
    match r.Read p with
    | none => none
    | some (res, rNext) =>
      match readTimes k rNext res.p with
      | none => none
      | some (rest, rLast) => some (res :: rest, rLast)

/-- Calls `Read` with the same buffer again and again until a call reports
`io.EOF`, at most `fuel` times; gives the results of the calls in call order,
and `none` when `fuel` calls did not reach `io.EOF`. -/
def readUntilEOF : Nat → MultiReader → List Byte → Option (List ReadResult)
  | 0, _, _ => none
  | fuel + 1, r, p =>
    match r.Read p with
    | none => none
    | some (res, rNext) =>
      if res.err = some Error.EOF then some [res]
      else
        match readUntilEOF fuel rNext res.p with
        | none => none
        | some rest => some (res :: rest)

/-- The bytes a call returned: `p[0:n]`. -/
def ReadResult.bytes (res : ReadResult) : List Byte := res.p.take res.n.toNat

/-- What reading `len(p)` bytes at offset `o` of the byte sequence `D` into
`p` gives: `min(len(p), len(D) - o)` bytes of `D` from `o` on at the start of
`p`, the rest of `p` untouched, and `io.EOF` when fewer than `len(p)` bytes
were read or `o` is the end of `D`. -/
def readOf (D p : List Byte) (o : Nat) : ReadResult :=
  { n := (min p.length (D.length - o) : Nat)
    err := if min p.length (D.length - o) < p.length ∨ o = D.length then some Error.EOF else none
    p := (D.drop o).take p.length ++ p.drop (min p.length (D.length - o)) }

/-- The reader `t` presents the byte sequence `D`: its size is `len(D)` and
every `ReadAt` at an offset in `[0, len(D)]` reads from `D`. -/
def Presents (t : SizedReaderAt) (D : List Byte) : Prop :=
  t.Size = D.length ∧ ∀ (p : List Byte) (o : Nat), o ≤ D.length → t.ReadAt p o = some (readOf D p o)

/-- The `strings.Reader`s over the byte sequences `srcs`, as `SizedReaderAt`
values. -/
def stringsReaders (srcs : List (List Byte)) : List SizedReaderAt :=
  srcs.map (fun s => SizedReaderAt.ext (stringsReader s))

/-! ## Concrete readers -/

/-- `NewMultiReader` of two sparse readers of `2^62` bytes each. -/
def hugePair : MultiReader :=
  { r1 := .multi (.ext (sparseSource (2 ^ 62))) .nullReader 0
    r2 := .ext (sparseSource (2 ^ 62))
    pos := 0 }

/-- `NewMultiReader` of two `strings.Reader`s, over the bytes `1 2 3` and
`4 5`. -/
def smallPair : MultiReader :=
  { r1 := .multi (.ext (stringsReader [1, 2, 3])) .nullReader 0
    r2 := .ext (stringsReader [4, 5])
    pos := 0 }

/-- `NewMultiReader` of three `strings.Reader`s, over the bytes `1 2 3`, no
bytes, and `4 5`. -/
def threeReader : MultiReader :=
  { r1 := .multi (.multi (.ext (stringsReader [1, 2, 3])) .nullReader 0)
      (.ext (stringsReader [])) 0
    r2 := .ext (stringsReader [4, 5])
    pos := 0 }

/-! ## The chain `NewMultiReader` builds, the calls of a `ReadAt`, sequences of calls -/

/-- The bytes of the test string `"This is a test, "` of `reader_test.go`. -/
def testData1 : List Byte := "This is a test, ".toUTF8.data.toList

/-- The bytes of the test string `"this is only"` of `reader_test.go`. -/
def testData2 : List Byte := "this is only".toUTF8.data.toList

/-- The bytes of the test string `" a test."` of `reader_test.go`. -/
def testData3 : List Byte := " a test.".toUTF8.data.toList

/-- `NewMultiReader(r1, r2, r3)` of `TestReaderAt`: three `strings.Reader`s
over `testData1`, `testData2` and `testData3`. -/
def testReader : MultiReader :=
  { r1 := .multi (.multi (.ext (stringsReader testData1)) .nullReader 0)
      (.ext (stringsReader testData2)) 0
    r2 := .ext (stringsReader testData3)
    pos := 0 }

/-- The node at level `i` of the left-deep chain over the readers `s0` and
`rest`: level `0` pairs `s0` with the `nullReader{}`, level `i + 1` pairs the
node of level `i` with `rest[i]`. -/
def chainNode (s0 : SizedReaderAt) (rest : List SizedReaderAt) : Nat → MultiReader
  | 0 => { r1 := s0, r2 := .nullReader, pos := 0 }
  | i + 1 => { r1 := (chainNode s0 rest i).toSized, r2 := rest.getD i .nullReader, pos := 0 }

/-- The leaves of `t` from left to right, once the first `n` `MultiReader`
nodes down its left spine are opened. -/
def leavesTo : Nat → SizedReaderAt → List SizedReaderAt
  | n + 1, .multi r1 r2 _ => leavesTo n r1 ++ [r2]
  | _, t => [t]

/-- The number of `MultiReader` nodes down the left spine of `t`. -/
def spineDepth : SizedReaderAt → Nat
  | .multi r1 _ _ => spineDepth r1 + 1
  | _ => 0

/-- The `MultiReader` nodes whose `ReadAt` runs during the call
`t.ReadAt(p, offset)`, in call order, each as the pair of the node's `Size()`
and the offset it is asked for. -/
def SizedReaderAt.asked : SizedReaderAt → List Byte → Int → List (Int × Int)
  | .ext _, _, _ => []
  | .nullReader, _, _ => []
  | .multi r1 r2 _, p, offset =>
    (int64 (r1.Size + r2.Size), offset) ::
      (if offset > int64 (r1.Size + r2.Size) then []
      else if offset < r1.Size then
        r1.asked p offset ++
          (match r1.ReadAt p offset with
          | none => []
          | some res1 =>
            if res1.err = none ∨ res1.err ≠ some Error.EOF then []
            else if 0 ≤ res1.n ∧ res1.n ≤ p.length then
              r2.asked (res1.p.drop res1.n.toNat) 0
            else [])
      else r2.asked p (int64 (offset - r1.Size)))

/-- A call on a `*MultiReader`: `Seek(offset, whence)` or `Read(p)`. -/
inductive Call where
  | Seek (offset whence : Int)
  | Read (p : List Byte)

/-- Runs the calls in order on the reader `r` and gives the reader after the
last call; `none` when a call panics. -/
def runCalls : MultiReader → List Call → Option MultiReader
  | r, [] => some r
  | r, .Seek offset whence :: cs => runCalls (r.Seek offset whence).rdr cs
  | r, .Read p :: cs =>
    match r.Read p with
    | none => none
    | some (_, rNext) => runCalls rNext cs

/-! ## Arithmetic of `int64` and the size of a reader -/

theorem int64_of_range {x : Int} (h1 : -2 ^ 63 ≤ x) (h2 : x < 2 ^ 63) : int64 x = x := by
  unfold int64; omega

theorem int64_range (x : Int) : -2 ^ 63 ≤ int64 x ∧ int64 x < 2 ^ 63 := by
  unfold int64; omega

theorem toSized_Size (m : MultiReader) : m.toSized.Size = m.Size := rfl

theorem foldl_Size (rest : List SizedReaderAt) (m0 : MultiReader) :
    (rest.foldl (fun rdr r => ({ r1 := rdr.toSized, r2 := r, pos := 0 } : MultiReader)) m0).Size
      = int64 (m0.Size + (rest.map SizedReaderAt.Size).sum) := by
  induction rest generalizing m0 with
  | nil =>
    simp only [List.foldl_nil, List.map_nil, List.sum_nil, add_zero]
    unfold MultiReader.Size
    unfold int64; omega
  | cons r rest ih =>
    simp only [List.foldl_cons, List.map_cons, List.sum_cons]
    rw [ih]
    simp only [MultiReader.Size, toSized_Size, SizedReaderAt.Size]
    unfold int64; omega

theorem NewMultiReader_cons (r0 : SizedReaderAt) (rest : List SizedReaderAt) :
    NewMultiReader (r0 :: rest) =
      some (rest.foldl (fun rdr r => ({ r1 := rdr.toSized, r2 := r, pos := 0 } : MultiReader))
        { r1 := r0, r2 := .nullReader, pos := 0 }) := by
  cases rest <;> rfl

theorem Seek_unfold (m : MultiReader) (offset whence : Int) :
    m.Seek offset whence =
      if offset > m.Size then ⟨-1, some Error.errOutOfRange, m⟩
      else if whence = SeekStart then
        if offset < 0 then ⟨-1, some Error.errOutOfRange, m⟩
        else ⟨offset, none, { m with pos := offset }⟩
      else if whence = SeekCurrent then
        if int64 (m.pos + offset) < 0 ∨ int64 (m.pos + offset) > m.Size then
          ⟨-1, some Error.errOutOfRange, m⟩
        else ⟨int64 (m.pos + offset), none, { m with pos := int64 (m.pos + offset) }⟩
      else if whence = SeekEnd then
        if offset > 0 ∨ int64 (m.Size + offset) < 0 then
          ⟨-1, some Error.errOutOfRange, m⟩
        else ⟨int64 (m.Size + offset), none, { m with pos := int64 (m.Size + offset) }⟩
      else ⟨-1, some Error.errOutOfRange, m⟩ := rfl

theorem Seek_Size (m : MultiReader) (offset whence : Int) :
    (m.Seek offset whence).rdr.Size = m.Size := by
  rw [Seek_unfold]
  split_ifs <;> rfl

theorem Size_range (m : MultiReader) : -2 ^ 63 ≤ m.Size ∧ m.Size < 2 ^ 63 :=
  int64_range _

/-! ## Readers over byte sequences -/

theorem overlay_nil (p : List Byte) : overlay p [] = p := by
  simp [overlay]

theorem overlay_short (p w : List Byte) (h : w.length ≤ p.length) :
    overlay p w = w ++ p.drop w.length := by
  unfold overlay
  apply List.take_of_length_le
  simp; omega

theorem presents_stringsReader (s : List Byte) : Presents (.ext (stringsReader s)) s := by
  refine ⟨rfl, fun p o ho => ?_⟩
  simp only [SizedReaderAt.ReadAt, stringsReader, readOf]
  have h0 : ¬ ((o : Int) < 0) := by omega
  simp only [h0, if_false]
  by_cases h1 : (o : Int) ≥ (s.length : Int)
  · have : o = s.length := by omega
    subst this
    simp [overlay_nil]
  · simp only [h1, if_false]
    have h2 : o < s.length := by omega
    have hlen : ((s.drop o).take p.length).length = min p.length (s.length - o) := by
      simp
    simp only [Int.toNat_ofNat]
    rw [overlay_short _ _ (by rw [hlen]; omega)]
    simp only [hlen]
    have h3 : o ≠ s.length := by omega
    simp only [h3, or_false, Nat.cast_lt]

theorem presents_nullReader : Presents .nullReader [] := by
  refine ⟨rfl, fun p o ho => ?_⟩
  simp at ho
  subst ho
  simp [SizedReaderAt.ReadAt, readOf]

theorem readOf_append_right (D1 D2 p : List Byte) (o : Nat) (h : D1.length ≤ o) :
    readOf (D1 ++ D2) p o = readOf D2 p (o - D1.length) := by
  unfold readOf
  have e1 : (D1 ++ D2).length - o = D2.length - (o - D1.length) := by
    simp only [List.length_append]; omega
  have e2 : (o = (D1 ++ D2).length) = (o - D1.length = D2.length) := by
    simp only [List.length_append, eq_iff_iff]; omega
  have e3 : List.drop o (D1 ++ D2) = List.drop (o - D1.length) D2 := by
    rw [List.drop_append_eq_append_drop, List.drop_eq_nil_of_le h, List.nil_append]
  simp only [e1, e2, e3]

theorem readOf_append_left (D1 D2 p : List Byte) (o : Nat) (h : o < D1.length)
    (hp : p.length ≤ D1.length - o) :
    readOf (D1 ++ D2) p o = readOf D1 p o := by
  unfold readOf
  have e1 : min p.length ((D1 ++ D2).length - o) = min p.length (D1.length - o) := by
    simp only [List.length_append]; omega
  have e2 : (o = (D1 ++ D2).length) = (o = D1.length) := by
    simp only [List.length_append, eq_iff_iff]; omega
  have e3 : List.take p.length (List.drop o (D1 ++ D2)) = List.take p.length (List.drop o D1) := by
    rw [List.drop_append_eq_append_drop, List.take_append_eq_append_take]
    have : p.length - (List.drop o D1).length = 0 := by simp; omega
    simp [this]
    omega
  simp only [e1, e2, e3]

theorem readOf_left_full (D1 p : List Byte) (o : Nat) (h : o < D1.length)
    (hp : p.length ≤ D1.length - o) : (readOf D1 p o).err = none := by
  unfold readOf
  have : ¬ (min p.length (D1.length - o) < p.length ∨ o = D1.length) := by omega
  simp only [this, if_false]

theorem readOf_left_short (D1 p : List Byte) (o : Nat) (h : o < D1.length)
    (hp : D1.length - o < p.length) :
    readOf D1 p o = ⟨((D1.length - o : Nat) : Int), some Error.EOF,
      D1.drop o ++ p.drop (D1.length - o)⟩ := by
  unfold readOf
  have e1 : min p.length (D1.length - o) = D1.length - o := by omega
  have e2 : List.take p.length (List.drop o D1) = List.drop o D1 := by
    apply List.take_of_length_le; simp; omega
  have e3 : D1.length - o < p.length ∨ o = D1.length := Or.inl hp
  simp only [e1, e2, e3, if_true]

theorem readOf_cross (D1 D2 p : List Byte) (o : Nat) (h : o < D1.length)
    (hp : D1.length - o < p.length) :
    readOf (D1 ++ D2) p o =
      ⟨((D1.length - o : Nat) : Int) + (readOf D2 (p.drop (D1.length - o)) 0).n,
        (readOf D2 (p.drop (D1.length - o)) 0).err,
        D1.drop o ++ (readOf D2 (p.drop (D1.length - o)) 0).p⟩ := by
  unfold readOf
  simp only [List.length_append, List.length_drop, Nat.sub_zero, List.drop_zero, List.drop_drop]
  have e1 : ((min p.length (D1.length + D2.length - o) : Nat) : Int)
      = ((D1.length - o : Nat) : Int) + ((min (p.length - (D1.length - o)) D2.length : Nat) : Int) := by
    omega
  have e2 : (min p.length (D1.length + D2.length - o) < p.length ∨ o = D1.length + D2.length)
      = (min (p.length - (D1.length - o)) D2.length < p.length - (D1.length - o) ∨ 0 = D2.length) := by
    simp only [eq_iff_iff]; omega
  have e3 : List.take p.length (List.drop o (D1 ++ D2))
      = List.drop o D1 ++ List.take (p.length - (D1.length - o)) D2 := by
    rw [List.drop_append_eq_append_drop, List.take_append_eq_append_take]
    have a : o - D1.length = 0 := by omega
    have b : List.take p.length (List.drop o D1) = List.drop o D1 := by
      apply List.take_of_length_le; simp; omega
    simp [a, b]
  have e4 : min p.length (D1.length + D2.length - o)
      = D1.length - o + min (p.length - (D1.length - o)) D2.length := by omega
  rw [e3]
  simp only [e1, e2, List.append_assoc]
  rw [e4]

theorem presents_multi (r1 r2 : SizedReaderAt) (D1 D2 : List Byte) (pos : Int)
    (h1 : Presents r1 D1) (h2 : Presents r2 D2)
    (hfit : ((D1 ++ D2).length : Int) < 2 ^ 63) :
    Presents (.multi r1 r2 pos) (D1 ++ D2) := by
  obtain ⟨hs1, hr1⟩ := h1
  obtain ⟨hs2, hr2⟩ := h2
  simp only [List.length_append, Nat.cast_add] at hfit
  have hsz : int64 (r1.Size + r2.Size) = (D1.length : Int) + D2.length := by
    rw [hs1, hs2]; apply int64_of_range <;> omega
  refine ⟨by simp [SizedReaderAt.Size, hsz], fun p o ho => ?_⟩
  simp only [List.length_append] at ho
  simp only [SizedReaderAt.ReadAt]
  rw [hsz, hs1]
  have hgt : ¬ ((o : Int) > (D1.length : Int) + D2.length) := by omega
  simp only [hgt, if_false]
  by_cases hlt : (o : Int) < D1.length
  · have hlt' : o < D1.length := by omega
    simp only [hlt, if_true]
    rw [hr1 p o (by omega)]
    simp only []
    by_cases hfull : p.length ≤ D1.length - o
    · have he := readOf_left_full D1 p o hlt' hfull
      simp only [he, true_or, if_true]
      rw [readOf_append_left D1 D2 p o hlt' hfull]
    · have hshort : D1.length - o < p.length := by omega
      rw [readOf_left_short D1 p o hlt' hshort]
      have c1 : ¬ ((some Error.EOF : Option Error) = none ∨
          (some Error.EOF : Option Error) ≠ some Error.EOF) := by simp
      have c2 : (0 : Int) ≤ ((D1.length - o : Nat) : Int) ∧
          ((D1.length - o : Nat) : Int) ≤ (p.length : Int) := by omega
      simp only [c1, c2, if_false, if_true, Int.toNat_ofNat]
      have d1 : List.drop (D1.length - o) (List.drop o D1 ++ List.drop (D1.length - o) p)
          = List.drop (D1.length - o) p := by
        rw [List.drop_append_eq_append_drop]
        simp
        omega
      have d2 : List.take (D1.length - o) (List.drop o D1 ++ List.drop (D1.length - o) p)
          = List.drop o D1 := by
        rw [List.take_append_eq_append_take]
        simp
      rw [d1, d2]
      have := hr2 (List.drop (D1.length - o) p) 0 (Nat.zero_le _)
      simp only [Nat.cast_zero] at this
      rw [this]
      simp only []
      have hn : int64 (((D1.length - o : Nat) : Int) +
          (readOf D2 (List.drop (D1.length - o) p) 0).n)
          = ((D1.length - o : Nat) : Int) + (readOf D2 (List.drop (D1.length - o) p) 0).n := by
        apply int64_of_range
        · unfold readOf; simp only []; omega
        · unfold readOf; simp only [List.length_drop]; omega
      rw [readOf_cross D1 D2 p o hlt' hshort, hn]
      simp only [and_self, if_true]
  · simp only [hlt, if_false]
    have hge : D1.length ≤ o := by omega
    have : int64 ((o : Int) - D1.length) = ((o - D1.length : Nat) : Int) := by
      rw [int64_of_range] <;> omega
    rw [this, hr2 p (o - D1.length) (by omega), readOf_append_right D1 D2 p o hge]

theorem presents_foldl (rest : List (List Byte)) (m0 : MultiReader) (D0 : List Byte)
    (h0 : Presents m0.toSized D0) (hfit : ((D0 ++ rest.flatten).length : Int) < 2 ^ 63) :
    Presents ((stringsReaders rest).foldl
      (fun rdr r => ({ r1 := rdr.toSized, r2 := r, pos := 0 } : MultiReader)) m0).toSized
      (D0 ++ rest.flatten) := by
  induction rest generalizing m0 D0 with
  | nil => simpa [stringsReaders] using h0
  | cons s rest ih =>
    simp only [stringsReaders, List.map_cons, List.foldl_cons, List.flatten_cons]
    rw [← List.append_assoc]
    simp only [List.flatten_cons, List.length_append, Nat.cast_add] at hfit
    apply ih
    · apply presents_multi _ _ _ _ _ h0 (presents_stringsReader s)
      simp only [List.length_append, Nat.cast_add]
      omega
    · simp only [List.length_append, Nat.cast_add]
      omega

theorem presents_NewMultiReader (srcs : List (List Byte)) (hne : srcs ≠ [])
    (hfit : (srcs.flatten.length : Int) < 2 ^ 63) :
    ∃ m, NewMultiReader (stringsReaders srcs) = some m ∧ m.pos = 0 ∧
      Presents m.toSized srcs.flatten := by
  cases srcs with
  | nil => exact absurd rfl hne
  | cons s rest =>
    refine ⟨_, NewMultiReader_cons _ _, ?_, ?_⟩
    · cases rest using List.reverseRecOn with
      | nil => rfl
      | append_singleton l a _ => simp [stringsReaders, List.foldl_append]
    · have hb : Presents (MultiReader.toSized
          { r1 := .ext (stringsReader s), r2 := .nullReader, pos := 0 }) (s ++ []) := by
        apply presents_multi _ _ _ _ _ (presents_stringsReader s) presents_nullReader
        simp only [List.flatten_cons, List.length_append, Nat.cast_add] at hfit
        simp only [List.append_nil]
        omega
      rw [List.append_nil] at hb
      exact presents_foldl rest _ s hb hfit

theorem presents_pos (r1 r2 : SizedReaderAt) (a b : Int) (D : List Byte)
    (h : Presents (.multi r1 r2 a) D) : Presents (.multi r1 r2 b) D := h

theorem presents_length_lt (r1 r2 : SizedReaderAt) (a : Int) (D : List Byte)
    (h : Presents (.multi r1 r2 a) D) : (D.length : Int) < 2 ^ 63 := by
  have := h.1
  simp only [SizedReaderAt.Size] at this
  rw [← this]
  exact (int64_range _).2

theorem Read_presents (r1 r2 : SizedReaderAt) (D p : List Byte) (c : Nat)
    (h : Presents (.multi r1 r2 0) D) (hc : c ≤ D.length) :
    MultiReader.Read { r1 := r1, r2 := r2, pos := c } p =
      some (readOf D p c,
        { r1 := r1, r2 := r2, pos := ((c + min p.length (D.length - c) : Nat) : Int) }) := by
  have hlt := presents_length_lt _ _ _ _ h
  have hr := (presents_pos r1 r2 0 c D h).2 p c hc
  unfold MultiReader.Read MultiReader.ReadAt MultiReader.toSized
  have hn : int64 ((c : Int) + (readOf D p c).n)
      = ((c + min p.length (D.length - c) : Nat) : Int) := by
    simp only [readOf, Nat.cast_add]
    apply int64_of_range <;> omega
  simp only [hr, hn]

theorem readOf_end (D p : List Byte) : readOf D p D.length = ⟨0, some Error.EOF, p⟩ := by
  simp [readOf]

theorem readOf_bytes (D p : List Byte) (o : Nat) :
    (readOf D p o).bytes = (D.drop o).take (min p.length (D.length - o)) := by
  simp only [ReadResult.bytes, readOf, Int.toNat_ofNat]
  rw [List.take_append_of_le_length (by simp), List.take_take]
  congr 1
  omega

theorem readOf_err_eof (D p : List Byte) (o : Nat)
    (h : min p.length (D.length - o) < p.length ∨ o = D.length) :
    (readOf D p o).err = some Error.EOF := by
  unfold readOf; exact if_pos h

theorem readOf_err_none (D p : List Byte) (o : Nat)
    (h : ¬ (min p.length (D.length - o) < p.length ∨ o = D.length)) :
    (readOf D p o).err = none := by
  unfold readOf; exact if_neg h

theorem readUntilEOF_presents (r1 r2 : SizedReaderAt) (D : List Byte)
    (h : Presents (.multi r1 r2 0) D) (n : Nat) :
    ∀ (c : Nat) (p : List Byte), c ≤ D.length → D.length - c ≤ n → 0 < p.length →
      ∃ init last, (∀ fuel, n + 1 ≤ fuel →
          readUntilEOF fuel { r1 := r1, r2 := r2, pos := c } p = some (init ++ [last])) ∧
        ((init ++ [last]).map ReadResult.bytes).flatten = D.drop c ∧
        last.err = some Error.EOF ∧ ∀ r ∈ init, r.err = none := by
  induction n with
  | zero =>
    intro c p hc hn hp
    have hcD : c = D.length := by omega
    subst hcD
    refine ⟨[], ⟨0, some Error.EOF, p⟩, ?_, ?_, rfl, by simp⟩
    · intro fuel hf
      obtain ⟨f, rfl⟩ : ∃ f, fuel = f + 1 := ⟨fuel - 1, by omega⟩
      simp only [readUntilEOF, Read_presents r1 r2 D p D.length h le_rfl, readOf_end]
      simp
    · simp [ReadResult.bytes]
  | succ n ih =>
    intro c p hc hn hp
    by_cases hshort : min p.length (D.length - c) < p.length ∨ c = D.length
    · refine ⟨[], readOf D p c, ?_, ?_, readOf_err_eof D p c hshort, by simp⟩
      · intro fuel hf
        obtain ⟨f, rfl⟩ : ∃ f, fuel = f + 1 := ⟨fuel - 1, by omega⟩
        simp only [readUntilEOF, Read_presents r1 r2 D p c h hc]
        have : (readOf D p c).err = some Error.EOF := readOf_err_eof D p c hshort
        simp [this]
      · simp only [List.nil_append, List.map_cons, List.map_nil, List.flatten_cons,
          List.flatten_nil, List.append_nil, readOf_bytes]
        apply List.take_of_length_le
        simp only [List.length_drop]
        omega
    · have hk : min p.length (D.length - c) = p.length := by omega
      have hlen : (readOf D p c).p.length = p.length := by
        simp only [readOf, List.length_append, List.length_take, List.length_drop]
        omega
      obtain ⟨init, last, hrun, hbytes, hlast, hinit⟩ :=
        ih (c + p.length) (readOf D p c).p (by omega) (by omega) (by omega)
      have herr : (readOf D p c).err = none := readOf_err_none D p c hshort
      refine ⟨readOf D p c :: init, last, ?_, ?_, hlast, ?_⟩
      · intro fuel hf
        obtain ⟨f, rfl⟩ : ∃ f, fuel = f + 1 := ⟨fuel - 1, by omega⟩
        simp only [readUntilEOF, Read_presents r1 r2 D p c h hc, hk, herr]
        have := hrun f (by omega)
        simp only [Nat.cast_add] at this ⊢
        simp [this]
      · simp only [List.cons_append, List.map_cons, List.flatten_cons, hbytes, readOf_bytes, hk]
        rw [← List.drop_drop, List.take_append_drop]
      · intro r hr
        rcases List.mem_cons.1 hr with rfl | hr
        · exact herr
        · exact hinit r hr

theorem MultiReader_eta (m : MultiReader) (c : Int) (h : m.pos = c) :
    m = { r1 := m.r1, r2 := m.r2, pos := c } := by
  cases m; simp at h; simp [h]

theorem readTimes_fix (r : MultiReader) (p : List Byte) (res : ReadResult)
    (hp : res.p = p) (h : r.Read p = some (res, r)) (k : Nat) :
    readTimes k r p = some (List.replicate k res, r) := by
  induction k with
  | zero => rfl
  | succ k ih => simp only [readTimes, h, hp, ih, List.replicate_succ]

theorem presents_of_NewMultiReader (srcs : List (List Byte)) (m : MultiReader)
    (hm : NewMultiReader (stringsReaders srcs) = some m)
    (hfit : (srcs.flatten.length : Int) < 2 ^ 63) :
    m.pos = 0 ∧ Presents m.toSized srcs.flatten := by
  have hne : srcs ≠ [] := by
    rintro rfl
    simp [stringsReaders, NewMultiReader] at hm
  obtain ⟨m0, hm0, hpos, hP⟩ := presents_NewMultiReader srcs hne hfit
  rw [hm] at hm0
  cases hm0
  exact ⟨hpos, hP⟩

/-! ## The claims -/

/-- C1: for `strings.Reader` sources over the byte sequences `srcs` (whose
total length is an `int64`), the reader `m` that `NewMultiReader` returns,
every buffer `p` and every offset `o` with `0 <= o <= m.Size()`, the call
`m.ReadAt(p, o)` returns `n = min(len(p), m.Size() - o)`, and `p[0:n]` holds
the bytes `[o, o+n)` of the concatenation of the sources in the order given.
The sources may be empty and the range may cross any number of boundaries. -/
theorem C1_ReadAt_concat (srcs : List (List Byte)) (m : MultiReader)
    (hm : NewMultiReader (stringsReaders srcs) = some m)
    (hfit : (srcs.flatten.length : Int) < 2 ^ 63) (p : List Byte) (o : Int)
    (h0 : 0 ≤ o) (h1 : o ≤ m.Size) :
    ∃ res, m.ReadAt p o = some res ∧
      res.n = min (p.length : Int) (m.Size - o) ∧
      res.p.take res.n.toNat = (srcs.flatten.drop o.toNat).take res.n.toNat := by
  obtain ⟨-, hsz, hrd⟩ := presents_of_NewMultiReader srcs m hm hfit
  rw [toSized_Size] at hsz
  rw [hsz] at h1 ⊢
  obtain ⟨c, rfl⟩ : ∃ c : Nat, o = c := ⟨o.toNat, by omega⟩
  refine ⟨readOf srcs.flatten p c, hrd p c (by omega), ?_, ?_⟩
  · simp only [readOf]; omega
  · have := readOf_bytes srcs.flatten p c
    simp only [ReadResult.bytes] at this
    rw [this]
    simp only [readOf, Int.toNat_ofNat]

/-- C1 at the sources `1 2 3`, empty, `4 5`: reading two bytes at offset `2`
crosses two boundaries. -/
theorem C1_ReadAt_concat_witness :
    ∃ res, threeReader.ReadAt [0, 0] 2 = some res ∧
      res.n = min (([0, 0] : List Byte).length : Int) (threeReader.Size - 2) ∧
      res.p.take res.n.toNat =
        ((([[1, 2, 3], [], [4, 5]] : List (List Byte)).flatten.drop (2 : Int).toNat).take
          res.n.toNat) :=
  C1_ReadAt_concat [[1, 2, 3], [], [4, 5]] threeReader rfl (by decide) [0, 0] 2
    (by decide) (by decide)

/-- C2: when the sum of the sizes of the readers is an `int64` (no overflow),
the reader `m` that `NewMultiReader` returns has `m.Size()` equal to that sum;
and every `MultiReader` node has `Size()` equal to the `int64` sum
`r1.Size() + r2.Size()`, which is the exact sum when that is an `int64`. -/
theorem C2_Size_eq_sum (readers : List SizedReaderAt) (m : MultiReader)
    (hm : NewMultiReader readers = some m)
    (hsum : isInt64 (readers.map SizedReaderAt.Size).sum) :
    m.Size = (readers.map SizedReaderAt.Size).sum ∧
    (∀ node : MultiReader, node.Size = int64 (node.r1.Size + node.r2.Size)) ∧
    (∀ node : MultiReader, isInt64 (node.r1.Size + node.r2.Size) →
      node.Size = node.r1.Size + node.r2.Size) := by
  refine ⟨?_, fun _ => rfl, fun node h => int64_of_range h.1 h.2⟩
  cases readers with
  | nil => simp [NewMultiReader] at hm
  | cons r0 rest =>
    rw [NewMultiReader_cons] at hm
    cases hm
    rw [foldl_Size]
    simp only [MultiReader.Size, SizedReaderAt.Size, List.map_cons, List.sum_cons] at hsum ⊢
    unfold isInt64 at hsum
    unfold int64; omega

/-- C2 at three `strings.Reader`s of sizes `3`, `0` and `2`. -/
theorem C2_Size_eq_sum_witness :
    threeReader.Size = ((stringsReaders [[1, 2, 3], [], [4, 5]]).map SizedReaderAt.Size).sum ∧
    threeReader.Size = 5 :=
  ⟨(C2_Size_eq_sum (stringsReaders [[1, 2, 3], [], [4, 5]]) threeReader rfl (by decide)).1,
    by decide⟩

/-- C3: for `strings.Reader` sources over `srcs` (total length an `int64`),
the fresh reader `m` of `NewMultiReader` (cursor `0`) and a buffer `p` of
positive length, calling `Read` until a call reports `io.EOF` ends within
`len(concatenation) + 1` calls; the bytes the calls returned, concatenated in
call order, are the concatenation of the sources; the last call reports
`io.EOF` and every call before it reports no error. -/
theorem C3_sequential_Read (srcs : List (List Byte)) (m : MultiReader)
    (hm : NewMultiReader (stringsReaders srcs) = some m)
    (hfit : (srcs.flatten.length : Int) < 2 ^ 63) (p : List Byte) (hp : 0 < p.length) :
    m.pos = 0 ∧
    ∃ calls last,
      (∀ fuel, srcs.flatten.length + 1 ≤ fuel →
        readUntilEOF fuel m p = some (calls ++ [last])) ∧
      ((calls ++ [last]).map ReadResult.bytes).flatten = srcs.flatten ∧
      last.err = some Error.EOF ∧ ∀ r ∈ calls, r.err = none := by
  obtain ⟨hpos, hP⟩ := presents_of_NewMultiReader srcs m hm hfit
  obtain ⟨init, last, hrun, hbytes, hlast, hinit⟩ :=
    readUntilEOF_presents m.r1 m.r2 srcs.flatten (presents_pos _ _ _ _ _ hP)
      srcs.flatten.length 0 p (Nat.zero_le _) (by omega) hp
  refine ⟨hpos, init, last, ?_, by simpa using hbytes, hlast, hinit⟩
  intro fuel hf
  have := hrun fuel hf
  rw [Nat.cast_zero, ← MultiReader_eta m 0 hpos] at this
  exact this

/-- C3 at the sources `1 2 3`, empty, `4 5` with a buffer of two bytes. -/
theorem C3_sequential_Read_witness :
    threeReader.pos = 0 ∧
    ∃ calls last,
      (∀ fuel, ([[1, 2, 3], [], [4, 5]] : List (List Byte)).flatten.length + 1 ≤ fuel →
        readUntilEOF fuel threeReader [0, 0] = some (calls ++ [last])) ∧
      ((calls ++ [last]).map ReadResult.bytes).flatten
        = ([[1, 2, 3], [], [4, 5]] : List (List Byte)).flatten ∧
      last.err = some Error.EOF ∧ ∀ r ∈ calls, r.err = none :=
  C3_sequential_Read [[1, 2, 3], [], [4, 5]] threeReader rfl (by decide) [0, 0] (by decide)

/-- C4: for every `MultiReader` `m`, whatever its cursor, and every `offset`,
`m.Seek(offset, io.SeekStart)` succeeds exactly when
`0 <= offset <= m.Size()`; when it succeeds it returns `offset` with a `nil`
error and the cursor is `offset` afterwards. -/
theorem C4_Seek_start (m : MultiReader) (offset : Int) :
    ((m.Seek offset SeekStart).err = none ↔ 0 ≤ offset ∧ offset ≤ m.Size) ∧
    ((m.Seek offset SeekStart).err = none →
      (m.Seek offset SeekStart).ret = offset ∧ (m.Seek offset SeekStart).rdr.pos = offset) := by
  rw [Seek_unfold]
  simp only [if_true]
  split_ifs with h1 h2 <;> simp <;> omega

/-- C4 at a reader of size `5`: seeking to `4` from the start. -/
theorem C4_Seek_start_witness :
    (smallPair.Seek 4 SeekStart).err = none ∧
    (smallPair.Seek 4 SeekStart).ret = 4 ∧ (smallPair.Seek 4 SeekStart).rdr.pos = 4 :=
  ⟨by decide, (C4_Seek_start smallPair 4).2 (by decide)⟩

/-- C5: for every `MultiReader` `m` whose cursor `c` has `0 <= c <= m.Size()`
and every `int64` `offset`, `m.Seek(offset, io.SeekCurrent)` succeeds exactly
when `0 <= c + offset <= m.Size()`; when it succeeds it returns `c + offset`
and the cursor is `c + offset` afterwards.  So the first test of `Seek`,
`offset > Size()`, rejects no seek whose target is in range. -/
theorem C5_Seek_current (m : MultiReader) (offset : Int)
    (hc : 0 ≤ m.pos ∧ m.pos ≤ m.Size) (ho : isInt64 offset) :
    ((m.Seek offset SeekCurrent).err = none ↔ 0 ≤ m.pos + offset ∧ m.pos + offset ≤ m.Size) ∧
    ((m.Seek offset SeekCurrent).err = none →
      (m.Seek offset SeekCurrent).ret = m.pos + offset ∧
      (m.Seek offset SeekCurrent).rdr.pos = m.pos + offset) := by
  have hS := int64_range (m.r1.Size + m.r2.Size)
  have hS2 : m.Size = int64 (m.r1.Size + m.r2.Size) := rfl
  rw [Seek_unfold]
  have h01 : SeekCurrent ≠ SeekStart := by decide
  simp only [h01, if_false, if_true]
  unfold isInt64 at ho
  split_ifs with h1 h2
  · simp; omega
  · simp
    unfold int64 at h2; omega
  · simp
    unfold int64 at h2 ⊢; omega

/-- C5 at a reader of size `5` with cursor `0`: seeking `3` forward. -/
theorem C5_Seek_current_witness :
    (0 ≤ smallPair.pos ∧ smallPair.pos ≤ smallPair.Size) ∧ isInt64 3 ∧
    (smallPair.Seek 3 SeekCurrent).err = none ∧
    (smallPair.Seek 3 SeekCurrent).ret = smallPair.pos + 3 ∧
    (smallPair.Seek 3 SeekCurrent).rdr.pos = smallPair.pos + 3 :=
  ⟨by decide, by decide, by decide,
    (C5_Seek_current smallPair 3 (by decide) (by decide)).2 (by decide)⟩

/-- C6 fails as stated: `NewMultiReader` of two sparse readers of `2^62`
bytes each has `Size() = -2^63` (the `int64` sum overflows), so
`Seek(0, io.SeekEnd)` fails with the out-of-range error instead of returning
`Size()`, and `Seek(-2^63, io.SeekEnd)` succeeds although
`-Size() <= offset` does not hold. -/
theorem C6_Seek_end_counterexample :
    NewMultiReader [.ext (sparseSource (2 ^ 62)), .ext (sparseSource (2 ^ 62))] = some hugePair ∧
    hugePair.Size = -2 ^ 63 ∧
    (hugePair.Seek 0 SeekEnd).err = some Error.errOutOfRange ∧
    (hugePair.Seek 0 SeekEnd).ret ≠ hugePair.Size ∧
    (hugePair.Seek 0 SeekEnd).rdr.pos ≠ hugePair.Size ∧
    ¬ (-hugePair.Size ≤ -2 ^ 63 ∧ (-2 ^ 63 : Int) ≤ 0) ∧
    (hugePair.Seek (-2 ^ 63) SeekEnd).err = none := by
  refine ⟨rfl, by decide, by decide, by decide, by decide, by decide, by decide⟩

/-- C6, amended: for every `MultiReader` `m` with `m.Size() >= 0` and every
`int64` `offset`: `m.Seek(0, io.SeekEnd)` returns `m.Size()` and sets the
cursor to it; `m.Seek(offset, io.SeekEnd)` fails with the out-of-range error
when `offset > 0`; it succeeds exactly when `-m.Size() <= offset <= 0`, and
then returns `m.Size() + offset` and sets the cursor to it. -/
theorem C6_Seek_end (m : MultiReader) (offset : Int) (hS : 0 ≤ m.Size) (ho : isInt64 offset) :
    ((m.Seek 0 SeekEnd).err = none ∧ (m.Seek 0 SeekEnd).ret = m.Size ∧
      (m.Seek 0 SeekEnd).rdr.pos = m.Size) ∧
    (0 < offset → (m.Seek offset SeekEnd).err = some Error.errOutOfRange) ∧
    ((m.Seek offset SeekEnd).err = none ↔ -m.Size ≤ offset ∧ offset ≤ 0) ∧
    ((m.Seek offset SeekEnd).err = none →
      (m.Seek offset SeekEnd).ret = m.Size + offset ∧
      (m.Seek offset SeekEnd).rdr.pos = m.Size + offset) := by
  have hR := Size_range m
  have h01 : SeekEnd ≠ SeekStart := by decide
  have h02 : SeekEnd ≠ SeekCurrent := by decide
  unfold isInt64 at ho
  refine ⟨?_, ?_, ?_⟩
  · rw [Seek_unfold]
    simp only [h01, h02, if_false, if_true]
    have : int64 (m.Size + 0) = m.Size := by unfold int64; omega
    rw [this]
    split_ifs with h1 h2
    · omega
    · omega
    · simp
  · intro hpos
    rw [Seek_unfold]
    simp only [h01, h02, if_false, if_true]
    split_ifs with h1 h2
    · rfl
    · rfl
    · omega
  · rw [Seek_unfold]
    simp only [h01, h02, if_false, if_true]
    split_ifs with h1 h2
    · simp; omega
    · simp
      unfold int64 at h2; omega
    · simp
      unfold int64 at h2 ⊢; omega

/-- C6, amended, at a reader of size `5`: seeking to two bytes before the
end. -/
theorem C6_Seek_end_witness :
    0 ≤ smallPair.Size ∧ isInt64 (-2) ∧
    (smallPair.Seek (-2) SeekEnd).err = none ∧
    (smallPair.Seek (-2) SeekEnd).ret = smallPair.Size + -2 ∧
    (smallPair.Seek (-2) SeekEnd).rdr.pos = smallPair.Size + -2 :=
  ⟨by decide, by decide, by decide,
    (C6_Seek_end smallPair (-2) (by decide) (by decide)).2.2.2 (by decide)⟩

/-- C7: for every `MultiReader` `m`, `offset` and `whence`, when `Seek`
returns an error it returns `-1` with the out-of-range error and the reader,
its cursor included, is what it was before the call; so a seek from the
start to a negative position or to one beyond `m.Size()` fails and leaves the
cursor where it was. -/
theorem C7_Seek_failure (m : MultiReader) (offset whence : Int) :
    ((m.Seek offset whence).err ≠ none →
      (m.Seek offset whence).ret = -1 ∧
      (m.Seek offset whence).err = some Error.errOutOfRange ∧
      (m.Seek offset whence).rdr = m) ∧
    (offset < 0 ∨ m.Size < offset →
      (m.Seek offset SeekStart).err = some Error.errOutOfRange ∧
      (m.Seek offset SeekStart).rdr.pos = m.pos) := by
  constructor
  · rw [Seek_unfold]
    split_ifs <;> simp
  · intro h
    rw [Seek_unfold]
    simp only [if_true]
    split_ifs with h1 h2
    · simp
    · simp
    · omega

/-- C7 at a reader of size `5`: seeking to `6` from the start. -/
theorem C7_Seek_failure_witness :
    (smallPair.Seek 6 SeekStart).err ≠ none ∧
    (smallPair.Seek 6 SeekStart).ret = -1 ∧
    (smallPair.Seek 6 SeekStart).err = some Error.errOutOfRange ∧
    (smallPair.Seek 6 SeekStart).rdr = smallPair :=
  ⟨by decide, (C7_Seek_failure smallPair 6 SeekStart).1 (by decide)⟩

/-- C8 fails as stated: on `NewMultiReader` of two sparse readers of `2^62`
bytes each (`Size() = -2^63`), `Seek(-2^63, io.SeekEnd)` succeeds with
position `0`, and the `Seek(0, io.SeekCurrent)` that follows fails with the
out-of-range error. -/
theorem C8_Seek_then_current_counterexample :
    (hugePair.Seek (-2 ^ 63) SeekEnd).err = none ∧
    (hugePair.Seek (-2 ^ 63) SeekEnd).ret = 0 ∧
    ((hugePair.Seek (-2 ^ 63) SeekEnd).rdr.Seek 0 SeekCurrent).err
      = some Error.errOutOfRange ∧
    ((hugePair.Seek (-2 ^ 63) SeekEnd).rdr.Seek 0 SeekCurrent).ret = -1 := by
  refine ⟨by decide, by decide, by decide, by decide⟩

/-- C8, amended: for every `MultiReader` `m` with `m.Size() >= 0`, every
`int64` `offset` and every `whence`, when `m.Seek(offset, whence)` succeeds
with position `q`, the `Seek(0, io.SeekCurrent)` that follows succeeds,
returns `q`, and leaves the cursor at `q`. -/
theorem C8_Seek_then_current (m : MultiReader) (offset whence : Int)
    (hS : 0 ≤ m.Size) (ho : isInt64 offset) (hok : (m.Seek offset whence).err = none) :
    ((m.Seek offset whence).rdr.Seek 0 SeekCurrent).err = none ∧
    ((m.Seek offset whence).rdr.Seek 0 SeekCurrent).ret = (m.Seek offset whence).ret ∧
    ((m.Seek offset whence).rdr.Seek 0 SeekCurrent).rdr.pos = (m.Seek offset whence).ret := by
  have hR := Size_range m
  have h01 : SeekCurrent ≠ SeekStart := by decide
  unfold isInt64 at ho
  have key : (m.Seek offset whence).rdr.pos = (m.Seek offset whence).ret ∧
      0 ≤ (m.Seek offset whence).ret ∧ (m.Seek offset whence).ret ≤ m.Size := by
    revert hok
    rw [Seek_unfold]
    split_ifs with h1 h2 h3 h4 h5 h6 h7 <;> simp
    · omega
    · omega
    · unfold int64 at h7 ⊢; omega
  obtain ⟨k1, k2, k3⟩ := key
  have hSz := Seek_Size m offset whence
  rw [Seek_unfold (m.Seek offset whence).rdr]
  simp only [h01, if_false, if_true, hSz, k1, add_zero]
  have : int64 (m.Seek offset whence).ret = (m.Seek offset whence).ret := by
    unfold int64; omega
  rw [this]
  split_ifs with h1 h2
  · omega
  · omega
  · simp

/-- C8, amended, at a reader of size `5`: seeking to two bytes before the
end, then `Seek(0, io.SeekCurrent)`. -/
theorem C8_Seek_then_current_witness :
    0 ≤ smallPair.Size ∧ isInt64 (-2) ∧ (smallPair.Seek (-2) SeekEnd).err = none ∧
    ((smallPair.Seek (-2) SeekEnd).rdr.Seek 0 SeekCurrent).err = none ∧
    ((smallPair.Seek (-2) SeekEnd).rdr.Seek 0 SeekCurrent).ret
      = (smallPair.Seek (-2) SeekEnd).ret ∧
    ((smallPair.Seek (-2) SeekEnd).rdr.Seek 0 SeekCurrent).rdr.pos
      = (smallPair.Seek (-2) SeekEnd).ret :=
  ⟨by decide, by decide, by decide,
    C8_Seek_then_current smallPair (-2) SeekEnd (by decide) (by decide) (by decide)⟩

/-- C9: for every `MultiReader` `m` with cursor `c` and every buffer `p`,
`m.Read(p)` returns the count, the error and the buffer contents that
`m.ReadAt(p, c)` returns (and panics exactly when it does); afterwards the
cursor is the `int64` sum `c + n`, which is `c + n` whenever that is an
`int64`, whatever the error is, and `r1` and `r2` are unchanged. -/
theorem C9_Read_eq_ReadAt (m : MultiReader) (p : List Byte) :
    (m.Read p).map Prod.fst = m.ReadAt p m.pos ∧
    (∀ res rdr, m.Read p = some (res, rdr) →
      rdr.pos = int64 (m.pos + res.n) ∧ rdr.r1 = m.r1 ∧ rdr.r2 = m.r2 ∧
      (isInt64 (m.pos + res.n) → rdr.pos = m.pos + res.n)) ∧
    (m.Read p = none ↔ m.ReadAt p m.pos = none) := by
  unfold MultiReader.Read
  cases h : m.ReadAt p m.pos with
  | none => simp
  | some res =>
    simp only [Option.map_some', true_and, Option.some.injEq, Prod.mk.injEq, and_imp,
      reduceCtorEq, iff_self, and_true]
    intro res2 rdr h1 h2
    subst h1 h2
    refine ⟨rfl, rfl, rfl, fun hr => int64_of_range hr.1 hr.2⟩

/-- C9 at a reader over the bytes `1 2 3 4 5` with cursor `0` and a buffer of
four bytes: `Read` returns four bytes and the cursor is `4` afterwards. -/
theorem C9_Read_eq_ReadAt_witness :
    smallPair.ReadAt [0, 0, 0, 0] smallPair.pos = some ⟨4, none, [1, 2, 3, 4]⟩ ∧
    smallPair.Read [0, 0, 0, 0]
      = some (⟨4, none, [1, 2, 3, 4]⟩, { smallPair with pos := 4 }) ∧
    ({ smallPair with pos := 4 } : MultiReader).pos = smallPair.pos + 4 :=
  ⟨by decide, rfl,
    ((C9_Read_eq_ReadAt smallPair [0, 0, 0, 0]).2.1 ⟨4, none, [1, 2, 3, 4]⟩
      { smallPair with pos := 4 } rfl).2.2.2 (by decide)⟩

/-- C10: for `strings.Reader` sources over `srcs` (total length an `int64`),
the reader `m` of `NewMultiReader` and every buffer `p`, the empty one
included: once the cursor is `m.Size()`, `Read(p)` returns `0` bytes with
`io.EOF`, leaves `p` and the cursor as they were, and so do `k` calls of
`Read` in a row, for every `k`. -/
theorem C10_Read_at_end (srcs : List (List Byte)) (m : MultiReader)
    (hm : NewMultiReader (stringsReaders srcs) = some m)
    (hfit : (srcs.flatten.length : Int) < 2 ^ 63) (p : List Byte) (k : Nat) :
    MultiReader.Read { m with pos := m.Size } p =
      some (⟨0, some Error.EOF, p⟩, { m with pos := m.Size }) ∧
    readTimes k { m with pos := m.Size } p =
      some (List.replicate k ⟨0, some Error.EOF, p⟩, { m with pos := m.Size }) := by
  obtain ⟨-, hP⟩ := presents_of_NewMultiReader srcs m hm hfit
  have hsz : m.Size = srcs.flatten.length := hP.1
  have hread : MultiReader.Read { m with pos := m.Size } p =
      some (⟨0, some Error.EOF, p⟩, { m with pos := m.Size }) := by
    have := Read_presents m.r1 m.r2 srcs.flatten p srcs.flatten.length
      (presents_pos _ _ _ _ _ hP) le_rfl
    rw [readOf_end] at this
    simp only [Nat.sub_self, Nat.min_zero, Nat.add_zero] at this
    rw [hsz]
    exact this
  exact ⟨hread, readTimes_fix _ p _ rfl hread k⟩

/-- C10 at the sources `1 2 3`, empty, `4 5` with the empty buffer and three
calls. -/
theorem C10_Read_at_end_witness :
    MultiReader.Read { threeReader with pos := threeReader.Size } [] =
      some (⟨0, some Error.EOF, []⟩, { threeReader with pos := threeReader.Size }) ∧
    readTimes 3 { threeReader with pos := threeReader.Size } [] =
      some (List.replicate 3 ⟨0, some Error.EOF, []⟩,
        { threeReader with pos := threeReader.Size }) :=
  C10_Read_at_end [[1, 2, 3], [], [4, 5]] threeReader rfl (by decide) [] 3

theorem ReadAt_unfold (r1 r2 : SizedReaderAt) (pos : Int) (p : List Byte) (offset : Int) :
    (SizedReaderAt.multi r1 r2 pos).ReadAt p offset =
      if offset > int64 (r1.Size + r2.Size) then
        some ⟨0, some Error.errOutOfRange, p⟩
      else if offset < r1.Size then
        match r1.ReadAt p offset with
        | none => none
        | some res1 =>
          if res1.err = none ∨ res1.err ≠ some Error.EOF then
            some res1
          else if 0 ≤ res1.n ∧ res1.n ≤ p.length then
            match r2.ReadAt (res1.p.drop res1.n.toNat) 0 with
            | none => none
            | some res2 =>
              some ⟨int64 (res1.n + res2.n), res2.err, res1.p.take res1.n.toNat ++ res2.p⟩
          else none
      else
        r2.ReadAt p (int64 (offset - r1.Size)) := by
  simp only [SizedReaderAt.ReadAt]

/-- C11: for every `MultiReader` `m`, every buffer `p` and every
`offset > m.Size()`, `m.ReadAt(p, offset)` returns `0` with the out-of-range
error and leaves `p` as it was; the result is the same for every other
`MultiReader` of the same size, whatever its children do in `ReadAt`
(neither child is asked). -/
theorem C11_ReadAt_beyond_size (m : MultiReader) (p : List Byte) (offset : Int)
    (h : m.Size < offset) :
    m.ReadAt p offset = some ⟨0, some Error.errOutOfRange, p⟩ ∧
    ∀ m2 : MultiReader, m2.Size = m.Size → m2.ReadAt p offset = m.ReadAt p offset := by
  have key : ∀ m2 : MultiReader, m2.Size = m.Size →
      m2.ReadAt p offset = some ⟨0, some Error.errOutOfRange, p⟩ := by
    intro m2 h2
    have hgt : offset > int64 (m2.r1.Size + m2.r2.Size) := by
      have : m2.Size = int64 (m2.r1.Size + m2.r2.Size) := rfl
      omega
    unfold MultiReader.ReadAt MultiReader.toSized
    rw [ReadAt_unfold, if_pos hgt]
  exact ⟨key m rfl, fun m2 h2 => by rw [key m2 h2, key m rfl]⟩

/-- C11 at a reader of size `5`: reading at offset `6`. -/
theorem C11_ReadAt_beyond_size_witness :
    smallPair.Size < 6 ∧
    smallPair.ReadAt [7, 7] 6 = some ⟨0, some Error.errOutOfRange, [7, 7]⟩ :=
  ⟨by decide, (C11_ReadAt_beyond_size smallPair [7, 7] 6 (by decide)).1⟩

/-- C14 fails as stated: the three test strings have `16`, `12` and `8`
bytes, and the reader `NewMultiReader` builds over them has
`Size() = 36`, not `37`. -/
theorem C14_test_Size_counterexample :
    NewMultiReader (stringsReaders [testData1, testData2, testData3]) = some testReader ∧
    testData1.length = 16 ∧ testData2.length = 12 ∧ testData3.length = 8 ∧
    testReader.Size ≠ 37 :=
  ⟨rfl, by decide, by decide, by decide, by decide⟩

/-- C14, amended: for the three sources containing `"This is a test, "`,
`"this is only"` and `" a test."` composed in that order with
`NewMultiReader`, `Size() = 36`. -/
theorem C14_test_Size :
    ∃ m, NewMultiReader (stringsReaders [testData1, testData2, testData3]) = some m ∧
      m.Size = 36 :=
  ⟨testReader, rfl, by decide⟩

/-- C15: `NewMultiReader` returns `nil` exactly when it is given no reader;
for every list of one or more readers it returns a `MultiReader`. -/
theorem C15_NewMultiReader_nil (readers : List SizedReaderAt) :
    (NewMultiReader readers = none ↔ readers = []) ∧
    (∀ (r0 : SizedReaderAt) (rest : List SizedReaderAt),
      ∃ m, NewMultiReader (r0 :: rest) = some m) := by
  constructor
  · cases readers with
    | nil => simp [NewMultiReader]
    | cons r0 rest => simp [NewMultiReader_cons]
  · intro r0 rest
    exact ⟨_, NewMultiReader_cons r0 rest⟩

/-- C16 fails as stated: with the `whence` value `3`, `Seek` fails with the
out-of-range error itself, not with an error distinct from it. -/
theorem C16_Seek_whence_counterexample :
    (3 : Int) ≠ SeekStart ∧ (3 : Int) ≠ SeekCurrent ∧ (3 : Int) ≠ SeekEnd ∧
    (smallPair.Seek 0 3).err = some Error.errOutOfRange ∧
    ¬ (∃ e, (smallPair.Seek 0 3).err = some e ∧ e ≠ Error.errOutOfRange) := by
  refine ⟨by decide, by decide, by decide, by decide, ?_⟩
  rintro ⟨e, he, hne⟩
  have h : (smallPair.Seek 0 3).err = some Error.errOutOfRange := by decide
  rw [h] at he
  exact hne (Option.some.inj he).symm

/-- C16, amended: for every `MultiReader` `m`, every `offset` and every
`whence` other than `io.SeekStart`, `io.SeekCurrent` and `io.SeekEnd`,
`m.Seek(offset, whence)` fails with the out-of-range error (the one error
`Seek` returns), returns `-1` and leaves the reader, cursor included,
unchanged. -/
theorem C16_Seek_whence (m : MultiReader) (offset whence : Int)
    (h0 : whence ≠ SeekStart) (h1 : whence ≠ SeekCurrent) (h2 : whence ≠ SeekEnd) :
    (m.Seek offset whence).err = some Error.errOutOfRange ∧
    (m.Seek offset whence).ret = -1 ∧
    (m.Seek offset whence).rdr = m := by
  rw [Seek_unfold]
  simp only [h0, h1, h2, if_false]
  split_ifs <;> exact ⟨rfl, rfl, rfl⟩

/-- C16, amended, at a reader of size `5` with the `whence` value `3`. -/
theorem C16_Seek_whence_witness :
    (smallPair.Seek 0 3).err = some Error.errOutOfRange ∧
    (smallPair.Seek 0 3).ret = -1 ∧
    (smallPair.Seek 0 3).rdr = smallPair :=
  C16_Seek_whence smallPair 0 3 (by decide) (by decide) (by decide)
/-- C19 fails as stated: in `NewMultiReader` of two sparse readers of `2^62`
bytes each, offset `0` lies in `[0, r1.Size())` and `r1.ReadAt` answers it
with one byte and no error, yet the node returns `0` with the out-of-range
error, because `r1.Size() + r2.Size()` overflows to `-2^63`. -/
theorem C19_left_only_counterexample :
    (0 : Int) ≤ 0 ∧ (0 : Int) < hugePair.r1.Size ∧
    hugePair.r1.ReadAt [7] 0 = some ⟨1, none, [0]⟩ ∧
    hugePair.ReadAt [7] 0 = some ⟨0, some Error.errOutOfRange, [7]⟩ ∧
    hugePair.ReadAt [7] 0 ≠ hugePair.r1.ReadAt [7] 0 := by
  refine ⟨by decide, by decide, by decide, by decide, by decide⟩

/-- C19, amended: for every `MultiReader` node, buffer `p` and `offset` with
`offset < r1.Size()` and `offset <= r1.Size() + r2.Size()` (the `int64` sum,
which the node tests first), if `r1.ReadAt(p, offset)` reports no `io.EOF`
(`nil` or any other error), then the node's `ReadAt(p, offset)` returns what
`r1` returned, count, error and buffer, and so does the node with any other
right child of the same size: the right child's `ReadAt` is not consulted. -/
theorem C19_left_only (r1 r2 : SizedReaderAt) (pos : Int) (p : List Byte) (offset : Int)
    (res1 : ReadResult) (hlt : offset < r1.Size)
    (hle : offset ≤ int64 (r1.Size + r2.Size))
    (hr1 : r1.ReadAt p offset = some res1) (hne : res1.err ≠ some Error.EOF) :
    MultiReader.ReadAt { r1 := r1, r2 := r2, pos := pos } p offset = some res1 ∧
    ∀ r3 : SizedReaderAt, r3.Size = r2.Size →
      MultiReader.ReadAt { r1 := r1, r2 := r3, pos := pos } p offset = some res1 := by
  have key : ∀ r3 : SizedReaderAt, r3.Size = r2.Size →
      MultiReader.ReadAt { r1 := r1, r2 := r3, pos := pos } p offset = some res1 := by
    intro r3 h3
    unfold MultiReader.ReadAt MultiReader.toSized
    rw [ReadAt_unfold]
    simp only [h3]
    rw [if_neg (by omega), if_pos hlt, hr1]
    simp only [hne, ne_eq, not_false_eq_true, or_true, if_true]
  exact ⟨key r2 rfl, key⟩

/-- C19, amended, at a reader over the bytes `1 2 3` and `4 5`: reading two
bytes at offset `0` with the right child as it is, and with a sparse reader
of two bytes in its place. -/
theorem C19_left_only_witness :
    MultiReader.ReadAt
        { r1 := smallPair.r1, r2 := smallPair.r2, pos := 0 } [0, 0] 0
      = some ⟨2, none, [1, 2]⟩ ∧
    MultiReader.ReadAt
        { r1 := smallPair.r1, r2 := .ext (sparseSource 2), pos := 0 } [0, 0] 0
      = some ⟨2, none, [1, 2]⟩ :=
  ⟨(C19_left_only smallPair.r1 smallPair.r2 0 [0, 0] 0 ⟨2, none, [1, 2]⟩
      (by decide) (by decide) (by decide) (by decide)).1,
    (C19_left_only smallPair.r1 smallPair.r2 0 [0, 0] 0 ⟨2, none, [1, 2]⟩
      (by decide) (by decide) (by decide) (by decide)).2 (.ext (sparseSource 2)) (by decide)⟩

/-- C20: for a `strings.Reader` `s` over bytes whose number is an `int64`,
every buffer `p` and every `o` with `0 <= o <= s.Size()`, the reader `m` that
`NewMultiReader(s)` returns has `m.Size() = s.Size()`, and `m.ReadAt(p, o)`
returns the count, the error and the buffer contents of `s.ReadAt(p, o)`;
and for every reader `r` the one-reader branch of `NewMultiReader` returns
the node the fold of the general branch gives for the list of `r` alone. -/
theorem C20_single_source (s : List Byte) (m : MultiReader)
    (hm : NewMultiReader [.ext (stringsReader s)] = some m)
    (hfit : (s.length : Int) < 2 ^ 63) (p : List Byte) (o : Int)
    (h0 : 0 ≤ o) (h1 : o ≤ (stringsReader s).Size) :
    m.Size = (stringsReader s).Size ∧
    m.ReadAt p o = (SizedReaderAt.ext (stringsReader s)).ReadAt p o ∧
    ∀ r : SizedReaderAt, NewMultiReader [r] =
      some (([] : List SizedReaderAt).foldl
        (fun rdr x => ({ r1 := rdr.toSized, r2 := x, pos := 0 } : MultiReader))
        { r1 := r, r2 := .nullReader, pos := 0 }) := by
  have hfit2 : ((([s] : List (List Byte)).flatten.length : Nat) : Int) < 2 ^ 63 := by
    simpa using hfit
  obtain ⟨-, hsz, hrd⟩ := presents_of_NewMultiReader [s] m hm hfit2
  simp only [List.flatten_cons, List.flatten_nil, List.append_nil] at hsz hrd
  have h1c : o ≤ (s.length : Int) := h1
  obtain ⟨c, rfl⟩ : ∃ c : Nat, o = c := ⟨o.toNat, by omega⟩
  refine ⟨hsz, ?_, fun r => rfl⟩
  unfold MultiReader.ReadAt
  rw [hrd p c (by omega), (presents_stringsReader s).2 p c (by omega)]

/-- C20 at the `strings.Reader` over the bytes `1 2 3`, with a buffer of two
bytes and offset `2`. -/
theorem C20_single_source_witness :
    MultiReader.Size { r1 := .ext (stringsReader [1, 2, 3]), r2 := .nullReader, pos := 0 }
      = (stringsReader [1, 2, 3]).Size ∧
    MultiReader.ReadAt { r1 := .ext (stringsReader [1, 2, 3]), r2 := .nullReader, pos := 0 }
        [0, 0] 2
      = (SizedReaderAt.ext (stringsReader [1, 2, 3])).ReadAt [0, 0] 2 :=
  ⟨(C20_single_source [1, 2, 3] _ rfl (by decide) [0, 0] 2 (by decide) (by decide)).1,
    (C20_single_source [1, 2, 3] _ rfl (by decide) [0, 0] 2 (by decide) (by decide)).2.1⟩
theorem foldl_take_chainNode (s0 : SizedReaderAt) (rest : List SizedReaderAt) (i : Nat)
    (hi : i ≤ rest.length) :
    (rest.take i).foldl (fun rdr r => ({ r1 := rdr.toSized, r2 := r, pos := 0 } : MultiReader))
      { r1 := s0, r2 := .nullReader, pos := 0 } = chainNode s0 rest i := by
  induction i with
  | zero => rfl
  | succ i ih =>
    have hlt : i < rest.length := by omega
    rw [List.take_succ, List.foldl_append, ih (by omega)]
    simp only [List.getElem?_eq_getElem hlt, Option.toList_some, List.foldl_cons, List.foldl_nil,
      chainNode, List.getD_eq_getElem _ _ hlt]

theorem leavesTo_chainNode (s0 : SizedReaderAt) (rest : List SizedReaderAt) (i : Nat)
    (hi : i ≤ rest.length) :
    leavesTo (i + 1) (chainNode s0 rest i).toSized = s0 :: .nullReader :: rest.take i := by
  induction i with
  | zero => simp [chainNode, MultiReader.toSized, leavesTo]
  | succ i ih =>
    have hlt : i < rest.length := by omega
    simp only [chainNode, MultiReader.toSized, leavesTo] at ih ⊢
    rw [ih (by omega), List.take_succ]
    simp [List.getElem?_eq_getElem hlt, List.getD_eq_getElem _ _ hlt]

theorem spineDepth_chainNode (s0 : SizedReaderAt) (rest : List SizedReaderAt) (i : Nat) :
    spineDepth (chainNode s0 rest i).toSized = i + 1 + spineDepth s0 := by
  induction i with
  | zero =>
    simp only [chainNode, MultiReader.toSized, spineDepth]
    omega
  | succ i ih =>
    simp only [chainNode, MultiReader.toSized, spineDepth] at ih ⊢
    omega

/-- C18: for the readers `s0` and `rest` (`N = len(rest) + 1` readers),
`NewMultiReader` returns the node of level `N - 1` of the left-deep chain:
level `0` is `(s0, nullReader{})`, level `i + 1` is `(level i, rest[i])`.  The
chain adds exactly `N` `MultiReader` nodes on top of `s0`, the right child of
the root is the last reader when `N >= 2`, and the leaves from left to right
are `s0`, the `nullReader{}`, then `rest` in order. -/
theorem C18_left_deep_chain (s0 : SizedReaderAt) (rest : List SizedReaderAt) :
    NewMultiReader (s0 :: rest) = some (chainNode s0 rest rest.length) ∧
    chainNode s0 rest 0 = { r1 := s0, r2 := .nullReader, pos := 0 } ∧
    (∀ (i : Nat) (h : i < rest.length), chainNode s0 rest (i + 1) =
      { r1 := (chainNode s0 rest i).toSized, r2 := rest.get ⟨i, h⟩, pos := 0 }) ∧
    spineDepth (chainNode s0 rest rest.length).toSized = rest.length + 1 + spineDepth s0 ∧
    (∀ h : rest ≠ [], (chainNode s0 rest rest.length).r2 = rest.getLast h) ∧
    leavesTo (rest.length + 1) (chainNode s0 rest rest.length).toSized
      = s0 :: .nullReader :: rest := by
  refine ⟨?_, rfl, ?_, spineDepth_chainNode s0 rest rest.length, ?_, ?_⟩
  · rw [NewMultiReader_cons, ← foldl_take_chainNode s0 rest rest.length le_rfl, List.take_length]
  · intro i h
    simp only [chainNode, List.getD_eq_getElem _ _ h, List.get_eq_getElem]
  · intro h
    obtain ⟨n, hn⟩ : ∃ n, rest.length = n + 1 := by
      cases rest with
      | nil => exact absurd rfl h
      | cons a l => exact ⟨l.length, rfl⟩
    rw [hn]
    simp only [chainNode]
    rw [List.getD_eq_getElem _ _ (by omega), List.getLast_eq_getElem]
    congr 1
    omega
  · have := leavesTo_chainNode s0 rest rest.length le_rfl
    rwa [List.take_length] at this

theorem foldl_chain_induction (P : SizedReaderAt → List Byte → Prop)
    (hstep : ∀ (t : SizedReaderAt) (D s : List Byte) (pos : Int), P t D →
      ((D ++ s).length : Int) < 2 ^ 63 → P (.multi t (.ext (stringsReader s)) pos) (D ++ s))
    (rest : List (List Byte)) (m0 : MultiReader) (D0 : List Byte)
    (h0 : P m0.toSized D0) (hfit : ((D0 ++ rest.flatten).length : Int) < 2 ^ 63) :
    P ((stringsReaders rest).foldl
      (fun rdr r => ({ r1 := rdr.toSized, r2 := r, pos := 0 } : MultiReader)) m0).toSized
      (D0 ++ rest.flatten) := by
  induction rest generalizing m0 D0 with
  | nil => simpa [stringsReaders] using h0
  | cons s rest ih =>
    simp only [stringsReaders, List.map_cons, List.foldl_cons, List.flatten_cons]
    rw [← List.append_assoc]
    simp only [List.flatten_cons, List.length_append, Nat.cast_add] at hfit
    apply ih
    · apply hstep _ _ _ _ h0
      simp only [List.length_append, Nat.cast_add]
      omega
    · simp only [List.length_append, Nat.cast_add]
      omega

theorem NewMultiReader_chain_induction (P : SizedReaderAt → List Byte → Prop)
    (hbase : ∀ s : List Byte, (s.length : Int) < 2 ^ 63 →
      P (.multi (.ext (stringsReader s)) .nullReader 0) s)
    (hstep : ∀ (t : SizedReaderAt) (D s : List Byte) (pos : Int), P t D →
      ((D ++ s).length : Int) < 2 ^ 63 → P (.multi t (.ext (stringsReader s)) pos) (D ++ s))
    (srcs : List (List Byte)) (m : MultiReader)
    (hm : NewMultiReader (stringsReaders srcs) = some m)
    (hfit : (srcs.flatten.length : Int) < 2 ^ 63) :
    P m.toSized srcs.flatten := by
  cases srcs with
  | nil => simp [stringsReaders, NewMultiReader] at hm
  | cons s rest =>
    have hm2 := NewMultiReader_cons (.ext (stringsReader s)) (stringsReaders rest)
    have e : stringsReaders (s :: rest) = .ext (stringsReader s) :: stringsReaders rest := rfl
    rw [e, hm2] at hm
    cases hm
    rw [List.flatten_cons]
    apply foldl_chain_induction P hstep rest _ s
    · apply hbase
      simp only [List.flatten_cons, List.length_append, Nat.cast_add] at hfit
      omega
    · simpa using hfit

theorem negative_offset_chain (srcs : List (List Byte)) (m : MultiReader)
    (hm : NewMultiReader (stringsReaders srcs) = some m)
    (hfit : (srcs.flatten.length : Int) < 2 ^ 63) :
    m.toSized.Size = srcs.flatten.length ∧ ∀ (p : List Byte) (o : Int), o < 0 →
      m.toSized.ReadAt p o = some ⟨0, some (Error.other 0), p⟩ := by
  apply NewMultiReader_chain_induction
    (fun t D => t.Size = D.length ∧ ∀ (p : List Byte) (o : Int), o < 0 →
      t.ReadAt p o = some ⟨0, some (Error.other 0), p⟩) _ _ srcs m hm hfit
  · intro s hs
    have hsz : int64 ((s.length : Int) + 0) = s.length := by
      apply int64_of_range <;> omega
    refine ⟨?_, fun p o ho => ?_⟩
    · simp only [SizedReaderAt.Size, stringsReader, hsz]
    · rw [ReadAt_unfold]
      simp only [SizedReaderAt.Size, stringsReader, hsz]
      rw [if_neg (by omega), if_pos (by omega)]
      simp [SizedReaderAt.ReadAt, ho, overlay_nil]
  · intro t D s pos ⟨ht0, htr⟩ hfit2
    simp only [List.length_append, Nat.cast_add] at hfit2
    have hsz : int64 (t.Size + (s.length : Int)) = (D.length : Int) + s.length := by
      rw [ht0]; apply int64_of_range <;> omega
    refine ⟨?_, fun p o ho => ?_⟩
    · simp only [SizedReaderAt.Size, stringsReader, hsz, List.length_append, Nat.cast_add]
    · rw [ReadAt_unfold]
      simp only [SizedReaderAt.Size, stringsReader, hsz]
      rw [if_neg (by omega), if_pos (by omega), htr p o ho]
      simp

theorem asked_multi_leaf (r1 r2 : SizedReaderAt) (pos : Int) (p : List Byte) (o : Int)
    (hr2 : ∀ (q : List Byte) (k : Int), r2.asked q k = []) (e : Int × Int)
    (he : e ∈ (SizedReaderAt.multi r1 r2 pos).asked p o) :
    e = (int64 (r1.Size + r2.Size), o) ∨ (o < r1.Size ∧ e ∈ r1.asked p o) := by
  simp only [SizedReaderAt.asked, List.mem_cons] at he
  rcases he with he | he
  · exact Or.inl he
  · right
    split_ifs at he with h1 h2
    · simp at he
    · refine ⟨h2, ?_⟩
      rcases List.mem_append.1 he with h | h
      · exact h
      · exfalso
        split at h
        · simp at h
        · split_ifs at h <;> simp [hr2] at h
    · simp [hr2] at he

theorem asked_chain (srcs : List (List Byte)) (m : MultiReader)
    (hm : NewMultiReader (stringsReaders srcs) = some m)
    (hfit : (srcs.flatten.length : Int) < 2 ^ 63) :
    m.toSized.Size = srcs.flatten.length ∧ ∀ (p : List Byte) (o : Int), o ≤ srcs.flatten.length →
      ∀ e ∈ m.toSized.asked p o, e.2 ≤ e.1 := by
  apply NewMultiReader_chain_induction
    (fun t D => t.Size = D.length ∧ ∀ (p : List Byte) (o : Int), o ≤ D.length →
      ∀ e ∈ t.asked p o, e.2 ≤ e.1) _ _ srcs m hm hfit
  · intro s hs
    have hsz : int64 ((s.length : Int) + 0) = s.length := by
      apply int64_of_range <;> omega
    refine ⟨?_, fun p o ho e he => ?_⟩
    · simp only [SizedReaderAt.Size, stringsReader, hsz]
    · rcases asked_multi_leaf (.ext (stringsReader s)) .nullReader 0 p o
          (fun _ _ => by simp only [SizedReaderAt.asked]) e he with h | ⟨-, h⟩
      · rw [h]
        simp only [SizedReaderAt.Size, stringsReader, hsz]
        exact ho
      · simp [SizedReaderAt.asked] at h
  · intro t D s pos ⟨ht0, hta⟩ hfit2
    simp only [List.length_append, Nat.cast_add] at hfit2
    have hsz : int64 (t.Size + (s.length : Int)) = (D.length : Int) + s.length := by
      rw [ht0]; apply int64_of_range <;> omega
    refine ⟨?_, fun p o ho e he => ?_⟩
    · simp only [SizedReaderAt.Size, stringsReader, hsz, List.length_append, Nat.cast_add]
    · simp only [List.length_append, Nat.cast_add] at ho
      rcases asked_multi_leaf t (.ext (stringsReader s)) pos p o
          (fun _ _ => by simp only [SizedReaderAt.asked]) e he with h | ⟨hlt, h⟩
      · rw [h]
        simp only [SizedReaderAt.Size, stringsReader, hsz]
        exact ho
      · exact hta p o (by omega) e h

/-- C12: for `strings.Reader` sources over `srcs` (total length an `int64`),
the reader `m` of `NewMultiReader`, every buffer `p` and every offset `o`
with `0 <= o <= m.Size()`: `m.ReadAt(p, o)` returns; when it returns
`n < len(p)` its error is `io.EOF`; its error is never the out-of-range
error; and every `MultiReader` node whose `ReadAt` runs during the call is
asked for an offset that is at most its own size. -/
theorem C12_short_read_EOF (srcs : List (List Byte)) (m : MultiReader)
    (hm : NewMultiReader (stringsReaders srcs) = some m)
    (hfit : (srcs.flatten.length : Int) < 2 ^ 63) (p : List Byte) (o : Int)
    (h0 : 0 ≤ o) (h1 : o ≤ m.Size) :
    ∃ res, m.ReadAt p o = some res ∧
      (res.n < p.length → res.err = some Error.EOF) ∧
      res.err ≠ some Error.errOutOfRange ∧
      ∀ e ∈ m.toSized.asked p o, e.2 ≤ e.1 := by
  obtain ⟨-, hsz, hrd⟩ := presents_of_NewMultiReader srcs m hm hfit
  obtain ⟨-, hask⟩ := asked_chain srcs m hm hfit
  rw [toSized_Size] at hsz
  rw [hsz] at h1
  obtain ⟨c, rfl⟩ : ∃ c : Nat, o = c := ⟨o.toNat, by omega⟩
  refine ⟨readOf srcs.flatten p c, hrd p c (by omega), ?_, ?_, hask p c h1⟩
  · intro hn
    apply readOf_err_eof
    left
    simp only [readOf] at hn
    omega
  · simp only [readOf]
    split_ifs <;> simp

/-- C12 at the sources `1 2 3`, empty, `4 5`: reading four bytes at offset
`2`, where only three are left. -/
theorem C12_short_read_EOF_witness :
    ∃ res, threeReader.ReadAt [0, 0, 0, 0] 2 = some res ∧
      (res.n < ([0, 0, 0, 0] : List Byte).length → res.err = some Error.EOF) ∧
      res.err ≠ some Error.errOutOfRange ∧
      ∀ e ∈ threeReader.toSized.asked [0, 0, 0, 0] 2, e.2 ≤ e.1 :=
  C12_short_read_EOF [[1, 2, 3], [], [4, 5]] threeReader rfl (by decide) [0, 0, 0, 0] 2
    (by decide) (by decide)

/-- C17, the code at a failing input: on `NewMultiReader` of the
`strings.Reader`s over `1 2 3` and `4 5`, `ReadAt(p, -1)` returns `0` and
leaves `p` as it was, but its error is the negative-offset error that the
`strings.Reader` of the first source returns, not the out-of-range error:
`ReadAt` tests `offset > r1Size+r2Size` only, where `Seek` also rejects a
negative position with the out-of-range error. -/
theorem C17_negative_offset_failing :
    NewMultiReader (stringsReaders [[1, 2, 3], [4, 5]]) = some smallPair ∧
    smallPair.ReadAt [7, 7] (-1) = some ⟨0, some (Error.other 0), [7, 7]⟩ ∧
    smallPair.ReadAt [7, 7] (-1) ≠ some ⟨0, some Error.errOutOfRange, [7, 7]⟩ ∧
    (smallPair.Seek (-1) SeekStart).err = some Error.errOutOfRange :=
  ⟨rfl, by decide, by decide, by decide⟩

/-- What `ReadAt` does with a negative offset: for `strings.Reader` sources
over `srcs` (total length an `int64`), the reader `m` of `NewMultiReader`,
every buffer `p` and every negative `offset`, `m.ReadAt(p, offset)` returns
`0` with the error the first source returns for a negative offset (the
negative-offset error of `strings.Reader`, which is neither `io.EOF` nor the
out-of-range error) and writes no bytes. -/
theorem ReadAt_negative_offset (srcs : List (List Byte)) (m : MultiReader)
    (hm : NewMultiReader (stringsReaders srcs) = some m)
    (hfit : (srcs.flatten.length : Int) < 2 ^ 63) (p : List Byte) (offset : Int)
    (hneg : offset < 0) :
    m.ReadAt p offset = some ⟨0, some (Error.other 0), p⟩ ∧
    (stringsReader (srcs.headD [])).ReadAt p offset = (0, some (Error.other 0), []) :=
  ⟨(negative_offset_chain srcs m hm hfit).2 p offset hneg, by simp [stringsReader, hneg]⟩

/-- `ReadAt_negative_offset` at the sources `1 2 3` and `4 5` with offset `-1`. -/
theorem ReadAt_negative_offset_example :
    smallPair.ReadAt [7, 7] (-1) = some ⟨0, some (Error.other 0), [7, 7]⟩ :=
  (ReadAt_negative_offset [[1, 2, 3], [4, 5]] smallPair rfl (by decide) [7, 7] (-1) (by decide)).1

theorem Seek_keeps_cursor_in_range (m : MultiReader) (offset whence : Int)
    (hc : 0 ≤ m.pos ∧ m.pos ≤ m.Size) (ho : isInt64 offset) :
    (m.Seek offset whence).rdr.r1 = m.r1 ∧ (m.Seek offset whence).rdr.r2 = m.r2 ∧
    0 ≤ (m.Seek offset whence).rdr.pos ∧ (m.Seek offset whence).rdr.pos ≤ m.Size := by
  have hR := Size_range m
  unfold isInt64 at ho
  rw [Seek_unfold]
  split_ifs with h1 h2 h3 h4 h5 h6 h7
  all_goals simp only [true_and]
  all_goals first
    | omega
    | (unfold int64 at h7 ⊢; omega)

theorem runCalls_presents (r1 r2 : SizedReaderAt) (D : List Byte)
    (h : Presents (.multi r1 r2 0) D) (calls : List Call)
    (hty : ∀ offset whence, Call.Seek offset whence ∈ calls → isInt64 offset) :
    ∀ c : Int, 0 ≤ c → c ≤ D.length →
      ∃ c2 : Int, runCalls { r1 := r1, r2 := r2, pos := c } calls
          = some { r1 := r1, r2 := r2, pos := c2 } ∧ 0 ≤ c2 ∧ c2 ≤ D.length := by
  have hsz : ∀ c : Int, MultiReader.Size { r1 := r1, r2 := r2, pos := c } = D.length :=
    fun c => h.1
  induction calls with
  | nil => exact fun c h0 h1 => ⟨c, rfl, h0, h1⟩
  | cons call calls ih =>
    have hty2 : ∀ offset whence, Call.Seek offset whence ∈ calls → isInt64 offset :=
      fun offset whence hmem => hty offset whence (List.mem_cons_of_mem _ hmem)
    intro c h0 h1
    cases call with
    | Seek offset whence =>
      have ho := hty offset whence (List.mem_cons_self _ _)
      obtain ⟨e1, e2, k0, k1⟩ := Seek_keeps_cursor_in_range
        { r1 := r1, r2 := r2, pos := c } offset whence ⟨h0, by rw [hsz]; exact h1⟩ ho
      rw [hsz] at k1
      obtain ⟨c2, hrun, hc2⟩ := ih hty2 _ k0 k1
      refine ⟨c2, ?_, hc2⟩
      simp only [runCalls]
      have heta := MultiReader_eta
        (MultiReader.Seek { r1 := r1, r2 := r2, pos := c } offset whence).rdr _ rfl
      rw [e1, e2] at heta
      rw [heta]
      exact hrun
    | Read p =>
      obtain ⟨k, rfl⟩ : ∃ k : Nat, c = k := ⟨c.toNat, by omega⟩
      have hread := Read_presents r1 r2 D p k h (by omega)
      obtain ⟨c2, hrun, hc2⟩ := ih hty2 ((k + min p.length (D.length - k) : Nat) : Int)
        (by omega) (by omega)
      refine ⟨c2, ?_, hc2⟩
      simp only [runCalls, hread]
      exact hrun

/-- C13: for `strings.Reader` sources over `srcs` (total length an `int64`),
the reader `m` of `NewMultiReader` has cursor `0`, and after every finite
sequence of `Seek` calls (any `int64` offset, any `whence`) and `Read` calls
(any buffer), failing or not, no call panics and the cursor `c` of the reader
has `0 <= c <= Size()`, with `Size()` what it was. -/
theorem C13_cursor_in_range (srcs : List (List Byte)) (m : MultiReader)
    (hm : NewMultiReader (stringsReaders srcs) = some m)
    (hfit : (srcs.flatten.length : Int) < 2 ^ 63) (calls : List Call)
    (hty : ∀ offset whence, Call.Seek offset whence ∈ calls → isInt64 offset) :
    m.pos = 0 ∧
    ∃ m2, runCalls m calls = some m2 ∧ 0 ≤ m2.pos ∧ m2.pos ≤ m2.Size ∧ m2.Size = m.Size := by
  obtain ⟨hpos, hP⟩ := presents_of_NewMultiReader srcs m hm hfit
  have hP2 : Presents (.multi m.r1 m.r2 0) srcs.flatten := presents_pos _ _ _ _ _ hP
  obtain ⟨c2, hrun, h0, h1⟩ := runCalls_presents m.r1 m.r2 srcs.flatten hP2 calls hty 0
    le_rfl (by omega)
  rw [← MultiReader_eta m 0 hpos] at hrun
  refine ⟨hpos, _, hrun, h0, ?_, rfl⟩
  have : MultiReader.Size { r1 := m.r1, r2 := m.r2, pos := c2 } = srcs.flatten.length := hP2.1
  rw [this]
  exact h1

/-- C13 at the sources `1 2 3`, empty, `4 5`: a seek beyond the end, a seek
to one byte before the end, a read of four bytes, a seek with an unknown
`whence`, a read at the end. -/
theorem C13_cursor_in_range_witness :
    threeReader.pos = 0 ∧
    ∃ m2, runCalls threeReader
        [.Seek 9 SeekStart, .Seek (-1) SeekEnd, .Read [0, 0, 0, 0], .Seek 1 7, .Read [0]]
        = some m2 ∧ 0 ≤ m2.pos ∧ m2.pos ≤ m2.Size ∧ m2.Size = threeReader.Size :=
  C13_cursor_in_range [[1, 2, 3], [], [4, 5]] threeReader rfl (by decide)
    [.Seek 9 SeekStart, .Seek (-1) SeekEnd, .Read [0, 0, 0, 0], .Seek 1 7, .Read [0]]
    (by
      intro offset whence hmem
      simp only [List.mem_cons, Call.Seek.injEq, List.mem_singleton, reduceCtorEq,
        List.mem_nil_iff, or_false, false_or] at hmem
      rcases hmem with ⟨rfl, -⟩ | ⟨rfl, -⟩ | ⟨rfl, -⟩ <;> decide)

/-- C18 at three `strings.Reader`s: the reader `NewMultiReader` returns, its
right child and its leaves. -/
theorem C18_left_deep_chain_witness :
    NewMultiReader (stringsReaders [[1, 2, 3], [], [4, 5]]) = some threeReader ∧
    chainNode (.ext (stringsReader [1, 2, 3]))
      [.ext (stringsReader []), .ext (stringsReader [4, 5])] 2 = threeReader ∧
    leavesTo 3 (chainNode (.ext (stringsReader [1, 2, 3]))
      [.ext (stringsReader []), .ext (stringsReader [4, 5])] 2).toSized
      = [.ext (stringsReader [1, 2, 3]), .nullReader, .ext (stringsReader []),
          .ext (stringsReader [4, 5])] :=
  ⟨rfl, rfl,
    (C18_left_deep_chain (.ext (stringsReader [1, 2, 3]))
      [.ext (stringsReader []), .ext (stringsReader [4, 5])]).2.2.2.2.2⟩

end Multiio
